import Mathlib

/-!
Shallow embedding of `delete-rs` (`src/main.rs`), a Redis maintenance CLI with
two commands: `cleanup` (enumerate keys by pattern, sort, classify each key by
TTL and managed-namespace status, optionally delete) and `seed` (write a number
of generated keys, a random fraction with an expiry).

The store is modelled as a set of present keys plus a TTL oracle; the fallible
variants model every Redis call as an `Except` response and record the trace of
issued calls.
-/

namespace DeleteRs

/-- Model of Rust `str::split(sep)` specialised to one `char` separator:
the list of (possibly empty) segments between occurrences of `sep`.
`acc` holds the reversed characters of the current segment. -/
def splitCharAux (sep : Char) : List Char → List Char → List String
  | [], acc => [String.mk acc.reverse]
  | c :: cs, acc =>
    if c = sep then String.mk acc.reverse :: splitCharAux sep cs []
    else splitCharAux sep cs (c :: acc)

/-- `key.split(":")` from `main.rs` line 67: colon-separated segments of a key. -/
def splitColon (key : String) : List String :=
  splitCharAux ':' key.data []

/-- `usize::MAX` on the 64-bit target the program is built for. -/
def USIZE_MAX : Nat := 2 ^ 64 - 1

/-- Digit-by-digit accumulation of a decimal numeral with the per-step bound
check that Rust's checked accumulation performs; `none` on a non-digit
character or on overflow past `USIZE_MAX`. -/
def parseUsizeCore : List Char → Nat → Option Nat
  | [], acc => some acc
  | c :: cs, acc =>
    if c.isDigit then
      let acc' := acc * 10 + (c.toNat - '0'.toNat)
      if acc' ≤ USIZE_MAX then parseUsizeCore cs acc' else none
    else none

/-- Model of Rust `str::parse::<usize>()`: an optional leading `'+'`, then one
or more ASCII digits, value at most `USIZE_MAX`; anything else fails. -/
def parseUsize (s : String) : Option Nat :=
  match s.data with
  | [] => none
  | '+' :: rest => if rest = [] then none else parseUsizeCore rest 0
  | cs => parseUsizeCore cs 0

/-- The managed-namespace guard of `main.rs` lines 67-78: the Rust code takes
`parts_iter.next()` (the first segment) and then `parts_iter.last()` on the
ALREADY-ADVANCED iterator, so for a single-segment key `last()` is `None` and
the guard does not fire.  The key is managed iff it has at least two
colon-segments, the first equals `"bull"`, and the last fails to parse as a
`usize`. -/
def isManaged (key : String) : Bool :=
  match splitColon key with
  | [] => false
  | [_] => false
  | p :: rest =>
    match rest.getLast? with
    | some num => p == "bull" && (parseUsize num).isNone
    | none => false

/-- `should_delete` from `main.rs` line 80. -/
def shouldDelete (ttl maxTtl : Int) : Bool :=
  ttl ≤ maxTtl

/-- Lexicographic comparison of character lists by codepoint.  Rust compares
`String`s by byte order, which on UTF-8 encodings coincides with codepoint
order, so this is the order `keys.sort()` (`main.rs` line 60) sorts by. -/
def lexLe : List Char → List Char → Bool
  | [], _ => true
  | _ :: _, [] => false
  | a :: as, b :: bs =>
    if a < b then true else if b < a then false else lexLe as bs

/-- The string order used to sort the enumerated keys. -/
def keyLe (a b : String) : Bool :=
  lexLe a.data b.data

/-- The Redis instance as seen by `cleanup`: the keys currently present and a
TTL oracle (`TTL k` answers; `-1` is the no-expiry sentinel).  Deleting a key
does not change the answers the oracle would give for other keys. -/
structure Store where
  keys : List String
  ttlOf : String → Int

/-- `conn.del(key)` from `main.rs` line 92: the key is removed from the store. -/
def Store.del (st : Store) (k : String) : Store :=
  ⟨st.keys.filter (fun x => x ≠ k), st.ttlOf⟩

/-- One progress line of the cleanup loop: either the managed-skip notice
(line 70) or the DELETE/SKIPPING classification notice (line 81), with the
1-based position `pos` among the enumerated keys. -/
inductive Event
  | managedSkip (pos : Nat) (key : String) (ttl : Int)
  | classified (pos : Nat) (key : String) (ttl : Int) (sd : Bool)
deriving DecidableEq

/-- The key an event reports on. -/
def Event.key : Event → String
  | .managedSkip _ k _ => k
  | .classified _ k _ _ => k

/-- The 1-based position an event reports. -/
def Event.pos : Event → Nat
  | .managedSkip p _ _ => p
  | .classified p _ _ _ => p

/-- Outcome of a `cleanup` run: the resulting store, the per-key report in
processing order, and the keys for which a delete was issued, in order. -/
structure CleanupResult where
  store : Store
  events : List Event
  deleted : List String

/-- The per-key loop of `cleanup` (`main.rs` lines 63-95): query the TTL,
skip managed keys, otherwise classify by `shouldDelete` and, when `commit`
holds and the key qualifies, delete it.  `idx` is the 0-based index of the
first key of the remaining list. -/
def cleanupLoop (maxTtl : Int) (commit : Bool) : Store → List String → Nat → CleanupResult
  | st, [], _ => ⟨st, [], []⟩
  | st, key :: ks, idx =>
    let i := idx + 1
    let ttl := st.ttlOf key
    if isManaged key then
      let r := cleanupLoop maxTtl commit st ks i
      ⟨r.store, Event.managedSkip i key ttl :: r.events, r.deleted⟩
    else
      let sd := shouldDelete ttl maxTtl
      if commit && sd then
        let r := cleanupLoop maxTtl commit (st.del key) ks i
        ⟨r.store, Event.classified i key ttl sd :: r.events, key :: r.deleted⟩
      else
        let r := cleanupLoop maxTtl commit st ks i
        ⟨r.store, Event.classified i key ttl sd :: r.events, r.deleted⟩

/-- `cleanup` from `main.rs` lines 54-97: enumerate the keys matching the
pattern (`conn.keys`, modelled by the predicate `patMatch`, since glob
semantics are delegated to the store), sort them lexicographically
(`keys.sort()`, line 60), then run the per-key loop. -/
def cleanup (patMatch : String → Bool) (maxTtl : Int) (commit : Bool) (st : Store) : CleanupResult :=
  let sorted := List.insertionSort (fun a b => keyLe a b = true) (st.keys.filter patMatch)
  cleanupLoop maxTtl commit st sorted 0

/-- One key-value write performed by `seed`: the key and its expiry, `none`
when the key is written without one. -/
structure WriteOp where
  key : String
  expiry : Option Nat
deriving DecidableEq

/-- The writes of a successful `seed` run (`main.rs` lines 112-122): for each
1-based iteration `i` of `1..=numKeys`, the key is `{pfx}:{tok i}` (a fresh
ULID in the source, abstracted as the stream `tok`), and it gets expiry `ttl`
exactly when the uniform draw `lvl i ∈ [0,1)` is strictly below `threshold`
(`rng.random_range(0.0..1.0)`, abstracted as the stream `lvl`). -/
def seedWrites (pfx : String) (tok : Nat → String) (lvl : Nat → ℚ) (threshold : ℚ)
    (ttl : Nat) (numKeys : Nat) : List WriteOp :=
  (List.range' 1 numKeys).map fun i =>
    ⟨pfx ++ ":" ++ tok i, if lvl i < threshold then some ttl else none⟩

/-- Proof-side characterization of the report the cleanup loop emits: it
depends only on the TTL oracle, not on the key set, the commit flag, or the
deletions performed along the way. -/
def evSpec (f : String → Int) (maxTtl : Int) : List String → Nat → List Event
  | [], _ => []
  | key :: ks, idx =>
    (if isManaged key then Event.managedSkip (idx + 1) key (f key)
     else Event.classified (idx + 1) key (f key) (shouldDelete (f key) maxTtl)) ::
      evSpec f maxTtl ks (idx + 1)

/-- One call issued to the store, as named in the Redis client API the source
uses: `keys`, `ttl`, `del` (cleanup) and `set`, `set_ex` (seed). -/
inductive StoreCall
  | keysQ (pat : String)
  | ttlQ (k : String)
  | delQ (k : String)
  | setQ (k : String)
  | setExQ (k : String) (ttl : Nat)
deriving DecidableEq

/-- Whether a store call mutates the store (`del`, `set`, `set_ex`). -/
def StoreCall.isMutation : StoreCall → Bool
  | .delQ _ => true
  | .setQ _ => true
  | .setExQ _ _ => true
  | _ => false

/-- The store as a fallible oracle: each Redis call either answers or fails
with an error message.  Every `?` in the source propagates such a failure. -/
structure FStore where
  keysResp : String → Except String (List String)
  ttlResp : String → Except String Int
  delResp : String → Except String Unit
  setResp : String → Except String Unit
  setExResp : String → Nat → Except String Unit

/-- The store calls one iteration of the cleanup loop issues for key `k`, and
its outcome (`main.rs` lines 63-95): the TTL query (line 65, `?` aborts on
error), then, for a non-managed key that `commit` and `shouldDelete` select,
the delete (line 92, `?` aborts on error). -/
def processKeyF (s : FStore) (maxTtl : Int) (commit : Bool) (k : String) :
    List StoreCall × Except String Unit :=
  match s.ttlResp k with
  | .error e => ([.ttlQ k], .error e)
  | .ok ttl =>
    if isManaged k then ([.ttlQ k], .ok ())
    else if commit && shouldDelete ttl maxTtl then
      match s.delResp k with
      | .error e => ([.ttlQ k, .delQ k], .error e)
      | .ok _ => ([.ttlQ k, .delQ k], .ok ())
    else ([.ttlQ k], .ok ())

/-- The cleanup loop over the sorted keys, recording the trace of store calls
issued; a failing call ends the run immediately with that error and no
further calls. -/
def cleanupLoopF (s : FStore) (maxTtl : Int) (commit : Bool) :
    List String → List StoreCall × Except String Unit
  | [] => ([], .ok ())
  | k :: ks =>
    match processKeyF s maxTtl commit k with
    | (tr, .error e) => (tr, .error e)
    | (tr, .ok _) =>
      let r := cleanupLoopF s maxTtl commit ks
      (tr ++ r.1, r.2)

/-- `cleanup` against the fallible store: the enumeration call (line 56, `?`
aborts on error), then the sorted per-key loop. -/
def cleanupF (s : FStore) (pat : String) (maxTtl : Int) (commit : Bool) :
    List StoreCall × Except String Unit :=
  match s.keysResp pat with
  | .error e => ([.keysQ pat], .error e)
  | .ok keys =>
    let r := cleanupLoopF s maxTtl commit (List.insertionSort (fun a b => keyLe a b = true) keys)
    (.keysQ pat :: r.1, r.2)

/-- The store call iteration `i` of the seed loop issues and its outcome
(`main.rs` lines 113-121): `set_ex` with the configured TTL when the draw is
below the threshold, a plain `set` otherwise; `?` aborts on error. -/
def writeKeyF (s : FStore) (pfx : String) (tok : Nat → String) (lvl : Nat → ℚ)
    (threshold : ℚ) (ttl : Nat) (i : Nat) : List StoreCall × Except String Unit :=
  let key := pfx ++ ":" ++ tok i
  if lvl i < threshold then
    match s.setExResp key ttl with
    | .error e => ([.setExQ key ttl], .error e)
    | .ok _ => ([.setExQ key ttl], .ok ())
  else
    match s.setResp key with
    | .error e => ([.setQ key], .error e)
    | .ok _ => ([.setQ key], .ok ())

/-- The seed loop from iteration `i` with `n` iterations left, recording the
trace of writes; a failing write ends the run immediately with that error. -/
def seedLoopF (s : FStore) (pfx : String) (tok : Nat → String) (lvl : Nat → ℚ)
    (threshold : ℚ) (ttl : Nat) : Nat → Nat → List StoreCall × Except String Unit
  | _, 0 => ([], .ok ())
  | i, n + 1 =>
    match writeKeyF s pfx tok lvl threshold ttl i with
    | (tr, .error e) => (tr, .error e)
    | (tr, .ok _) =>
      let r := seedLoopF s pfx tok lvl threshold ttl (i + 1) n
      (tr ++ r.1, r.2)

/-- `seed` from `main.rs` lines 99-124 against the fallible store: the loop
`for i in 1..=num_keys` starts its 1-based counter at 1. -/
def seedF (s : FStore) (pfx : String) (tok : Nat → String) (lvl : Nat → ℚ)
    (threshold : ℚ) (ttl : Nat) (numKeys : Nat) : List StoreCall × Except String Unit :=
  seedLoopF s pfx tok lvl threshold ttl 1 numKeys

/-- A concrete fallible store exercising the abort behavior: key enumeration
always fails, TTL queries fail exactly on the key `"bad"`, deletes succeed,
and writes fail exactly on the key `"p:t3"`. -/
def failStore : FStore :=
  ⟨fun _ => Except.error "keys-err",
   fun k => if k = "bad" then Except.error "ttl-err" else Except.ok (-5),
   fun _ => Except.ok (),
   fun k => if k = "p:t3" then Except.error "set-err" else Except.ok (),
   fun k _ => if k = "p:t3" then Except.error "set-err" else Except.ok ()⟩

/-- A concrete token stream for exercising the seed loop. -/
def wTok : Nat → String := fun i => "t" ++ Nat.repr i

@[simp]
theorem Store.ttlOf_del (st : Store) (k : String) : (st.del k).ttlOf = st.ttlOf :=
  rfl

theorem Store.mem_keys_del (st : Store) (k x : String) :
    x ∈ (st.del k).keys ↔ x ∈ st.keys ∧ x ≠ k := by
  simp [Store.del]

theorem cleanupLoop_nil (maxTtl : Int) (c : Bool) (st : Store) (idx : Nat) :
    cleanupLoop maxTtl c st [] idx = ⟨st, [], []⟩ :=
  rfl

theorem cleanupLoop_cons_managed (maxTtl : Int) (c : Bool) (st : Store) (key : String)
    (ks : List String) (idx : Nat) (hm : isManaged key = true) :
    cleanupLoop maxTtl c st (key :: ks) idx =
      ⟨(cleanupLoop maxTtl c st ks (idx + 1)).store,
       Event.managedSkip (idx + 1) key (st.ttlOf key) ::
         (cleanupLoop maxTtl c st ks (idx + 1)).events,
       (cleanupLoop maxTtl c st ks (idx + 1)).deleted⟩ := by
  simp [cleanupLoop, hm]

theorem cleanupLoop_cons_del (maxTtl : Int) (c : Bool) (st : Store) (key : String)
    (ks : List String) (idx : Nat) (hm : isManaged key = false)
    (hc : (c && shouldDelete (st.ttlOf key) maxTtl) = true) :
    cleanupLoop maxTtl c st (key :: ks) idx =
      ⟨(cleanupLoop maxTtl c (st.del key) ks (idx + 1)).store,
       Event.classified (idx + 1) key (st.ttlOf key) (shouldDelete (st.ttlOf key) maxTtl) ::
         (cleanupLoop maxTtl c (st.del key) ks (idx + 1)).events,
       key :: (cleanupLoop maxTtl c (st.del key) ks (idx + 1)).deleted⟩ := by
  simp [cleanupLoop, hm, hc]

theorem cleanupLoop_cons_keep (maxTtl : Int) (c : Bool) (st : Store) (key : String)
    (ks : List String) (idx : Nat) (hm : isManaged key = false)
    (hc : (c && shouldDelete (st.ttlOf key) maxTtl) = false) :
    cleanupLoop maxTtl c st (key :: ks) idx =
      ⟨(cleanupLoop maxTtl c st ks (idx + 1)).store,
       Event.classified (idx + 1) key (st.ttlOf key) (shouldDelete (st.ttlOf key) maxTtl) ::
         (cleanupLoop maxTtl c st ks (idx + 1)).events,
       (cleanupLoop maxTtl c st ks (idx + 1)).deleted⟩ := by
  simp [cleanupLoop, hm, hc]

theorem cleanupLoop_events (maxTtl : Int) (c : Bool) :
    ∀ (l : List String) (st : Store) (idx : Nat),
      (cleanupLoop maxTtl c st l idx).events = evSpec st.ttlOf maxTtl l idx := by
  intro l
  induction l with
  | nil => intro st idx; rfl
  | cons key ks ih =>
    intro st idx
    by_cases hm : isManaged key
    · rw [cleanupLoop_cons_managed maxTtl c st key ks idx hm]
      simp [evSpec, hm, ih]
    · rw [Bool.not_eq_true] at hm
      rcases hb : (c && shouldDelete (st.ttlOf key) maxTtl) with _ | _
      · rw [cleanupLoop_cons_keep maxTtl c st key ks idx hm hb]
        simp [evSpec, hm, ih]
      · rw [cleanupLoop_cons_del maxTtl c st key ks idx hm hb]
        simp only [evSpec, hm, Bool.false_eq_true, if_false]
        rw [ih (st.del key) (idx + 1), Store.ttlOf_del]

theorem cleanupLoop_deleted (maxTtl : Int) (c : Bool) :
    ∀ (l : List String) (st : Store) (idx : Nat),
      (cleanupLoop maxTtl c st l idx).deleted =
        if c then l.filter (fun k => !isManaged k && shouldDelete (st.ttlOf k) maxTtl)
        else [] := by
  intro l
  induction l with
  | nil => intro st idx; cases c <;> rfl
  | cons key ks ih =>
    intro st idx
    by_cases hm : isManaged key
    · rw [cleanupLoop_cons_managed maxTtl c st key ks idx hm]
      cases c <;> simp [ih, List.filter_cons, hm]
    · rw [Bool.not_eq_true] at hm
      rcases hb : (c && shouldDelete (st.ttlOf key) maxTtl) with _ | _
      · rw [cleanupLoop_cons_keep maxTtl c st key ks idx hm hb]
        rcases c with _ | _
        · simp [ih]
        · rw [Bool.true_and] at hb
          simp [ih, List.filter_cons, hm, hb]
      · rw [cleanupLoop_cons_del maxTtl c st key ks idx hm hb]
        have hc : c = true := by
          rcases c with _ | _
          · simp at hb
          · rfl
        subst hc
        rw [Bool.true_and] at hb
        simp [ih, List.filter_cons, hm, hb]

theorem cleanupLoop_store_ttlOf (maxTtl : Int) (c : Bool) :
    ∀ (l : List String) (st : Store) (idx : Nat),
      (cleanupLoop maxTtl c st l idx).store.ttlOf = st.ttlOf := by
  intro l
  induction l with
  | nil => intro st idx; rfl
  | cons key ks ih =>
    intro st idx
    by_cases hm : isManaged key
    · rw [cleanupLoop_cons_managed maxTtl c st key ks idx hm]
      exact ih st (idx + 1)
    · rw [Bool.not_eq_true] at hm
      rcases hb : (c && shouldDelete (st.ttlOf key) maxTtl) with _ | _
      · rw [cleanupLoop_cons_keep maxTtl c st key ks idx hm hb]
        exact ih st (idx + 1)
      · rw [cleanupLoop_cons_del maxTtl c st key ks idx hm hb]
        rw [show (cleanupLoop maxTtl c (st.del key) ks (idx + 1)).store.ttlOf
              = (st.del key).ttlOf from ih (st.del key) (idx + 1)]
        rfl

theorem cleanupLoop_store_false (maxTtl : Int) :
    ∀ (l : List String) (st : Store) (idx : Nat),
      (cleanupLoop maxTtl false st l idx).store = st := by
  intro l
  induction l with
  | nil => intro st idx; rfl
  | cons key ks ih =>
    intro st idx
    by_cases hm : isManaged key
    · rw [cleanupLoop_cons_managed maxTtl false st key ks idx hm]
      exact ih st (idx + 1)
    · rw [Bool.not_eq_true] at hm
      rw [cleanupLoop_cons_keep maxTtl false st key ks idx hm (Bool.false_and _)]
      exact ih st (idx + 1)

theorem cleanupLoop_store_keys_subset (maxTtl : Int) (c : Bool) :
    ∀ (l : List String) (st : Store) (idx : Nat),
      (cleanupLoop maxTtl c st l idx).store.keys ⊆ st.keys := by
  intro l
  induction l with
  | nil => intro st idx x hx; exact hx
  | cons key ks ih =>
    intro st idx
    by_cases hm : isManaged key
    · rw [cleanupLoop_cons_managed maxTtl c st key ks idx hm]
      exact ih st (idx + 1)
    · rw [Bool.not_eq_true] at hm
      rcases hb : (c && shouldDelete (st.ttlOf key) maxTtl) with _ | _
      · rw [cleanupLoop_cons_keep maxTtl c st key ks idx hm hb]
        exact ih st (idx + 1)
      · rw [cleanupLoop_cons_del maxTtl c st key ks idx hm hb]
        intro x hx
        have hx' := ih (st.del key) (idx + 1) hx
        exact ((Store.mem_keys_del st key x).mp hx').1

theorem cleanupLoop_deleted_not_mem (maxTtl : Int) (c : Bool) :
    ∀ (l : List String) (st : Store) (idx : Nat) (k : String),
      k ∈ (cleanupLoop maxTtl c st l idx).deleted →
        k ∉ (cleanupLoop maxTtl c st l idx).store.keys := by
  intro l
  induction l with
  | nil => intro st idx k hk; cases hk
  | cons key ks ih =>
    intro st idx k
    by_cases hm : isManaged key
    · rw [cleanupLoop_cons_managed maxTtl c st key ks idx hm]
      exact ih st (idx + 1) k
    · rw [Bool.not_eq_true] at hm
      rcases hb : (c && shouldDelete (st.ttlOf key) maxTtl) with _ | _
      · rw [cleanupLoop_cons_keep maxTtl c st key ks idx hm hb]
        exact ih st (idx + 1) k
      · rw [cleanupLoop_cons_del maxTtl c st key ks idx hm hb]
        intro hk
        rcases List.mem_cons.mp hk with hk | hk
        · subst hk
          intro hmem
          have hx' := cleanupLoop_store_keys_subset maxTtl c ks (st.del k) (idx + 1) hmem
          exact ((Store.mem_keys_del st k k).mp hx').2 rfl
        · exact ih (st.del key) (idx + 1) k hk

theorem evSpec_map_key (f : String → Int) (maxTtl : Int) :
    ∀ (l : List String) (idx : Nat), (evSpec f maxTtl l idx).map Event.key = l := by
  intro l
  induction l with
  | nil => intro idx; rfl
  | cons key ks ih =>
    intro idx
    by_cases hm : isManaged key <;> simp [evSpec, hm, Event.key, ih]

theorem evSpec_map_pos (f : String → Int) (maxTtl : Int) :
    ∀ (l : List String) (idx : Nat),
      (evSpec f maxTtl l idx).map Event.pos = List.range' (idx + 1) l.length := by
  intro l
  induction l with
  | nil => intro idx; rfl
  | cons key ks ih =>
    intro idx
    by_cases hm : isManaged key <;> simp [evSpec, hm, Event.pos, ih, List.range']

theorem lexLe_total (a : List Char) : ∀ b, lexLe a b = true ∨ lexLe b a = true := by
  induction a with
  | nil => intro b; left; rfl
  | cons x xs ih =>
    intro b
    cases b with
    | nil => right; rfl
    | cons y ys =>
      rcases lt_trichotomy x y with h | h | h
      · left; simp [lexLe, h]
      · subst h
        rcases ih ys with ht | ht
        · left; simp [lexLe, lt_irrefl x, ht]
        · right; simp [lexLe, lt_irrefl x, ht]
      · right; simp [lexLe, h]

theorem lexLe_trans (a : List Char) :
    ∀ b c, lexLe a b = true → lexLe b c = true → lexLe a c = true := by
  induction a with
  | nil => intro b c _ _; rfl
  | cons x xs ih =>
    intro b c hab hbc
    cases b with
    | nil => simp [lexLe] at hab
    | cons y ys =>
      cases c with
      | nil => simp [lexLe] at hbc
      | cons z zs =>
        by_cases hxy : x < y
        · by_cases hyz : y < z
          · simp [lexLe, lt_trans hxy hyz]
          · by_cases hzy : z < y
            · simp [lexLe, hyz, hzy] at hbc
            · have hyzeq : y = z := le_antisymm (not_lt.mp hzy) (not_lt.mp hyz)
              subst hyzeq
              simp [lexLe, hxy]
        · by_cases hyx : y < x
          · simp [lexLe, hxy, hyx] at hab
          · have hxyeq : x = y := le_antisymm (not_lt.mp hyx) (not_lt.mp hxy)
            subst hxyeq
            rw [lexLe, if_neg (lt_irrefl x), if_neg (lt_irrefl x)] at hab
            by_cases hxz : x < z
            · simp [lexLe, hxz]
            · by_cases hzx : z < x
              · simp [lexLe, hxz, hzx] at hbc
              · have hxzeq : x = z := le_antisymm (not_lt.mp hzx) (not_lt.mp hxz)
                subst hxzeq
                rw [lexLe, if_neg (lt_irrefl x), if_neg (lt_irrefl x)] at hbc ⊢
                exact ih ys zs hab hbc

theorem keyLe_total (a b : String) : keyLe a b = true ∨ keyLe b a = true :=
  lexLe_total a.data b.data

theorem keyLe_trans (a b c : String) :
    keyLe a b = true → keyLe b c = true → keyLe a c = true :=
  lexLe_trans a.data b.data c.data

theorem string_append_cancel_left (s a b : String) (h : s ++ a = s ++ b) : a = b := by
  have hd : s.data ++ a.data = s.data ++ b.data := congrArg String.data h
  have hab := List.append_cancel_left hd
  cases a
  cases b
  exact congrArg String.mk hab

theorem evSpec_mem_shape (f : String → Int) (maxTtl : Int) :
    ∀ (l : List String) (idx : Nat) (e : Event), e ∈ evSpec f maxTtl l idx →
      (∃ p k, isManaged k = true ∧ e = Event.managedSkip p k (f k)) ∨
      (∃ p k, isManaged k = false ∧
        e = Event.classified p k (f k) (shouldDelete (f k) maxTtl)) := by
  intro l
  induction l with
  | nil => intro idx e he; cases he
  | cons key ks ih =>
    intro idx e he
    simp only [evSpec, List.mem_cons] at he
    rcases he with he | he
    · by_cases hm : isManaged key
      · exact Or.inl ⟨idx + 1, key, hm, by simpa [hm] using he⟩
      · refine Or.inr ⟨idx + 1, key, by simpa using hm, ?_⟩
        simpa [hm] using he
    · exact ih (idx + 1) e he

theorem managed_not_deleted (k : String) (hk : isManaged k = true)
    (patMatch : String → Bool) (maxTtl : Int) (commit : Bool) (st : Store) :
    k ∉ (cleanup patMatch maxTtl commit st).deleted := by
  intro hmem
  have hdel := cleanupLoop_deleted maxTtl commit
    (List.insertionSort (fun a b => keyLe a b = true) (st.keys.filter patMatch)) st 0
  rw [show (cleanup patMatch maxTtl commit st).deleted
        = (cleanupLoop maxTtl commit st
            (List.insertionSort (fun a b => keyLe a b = true) (st.keys.filter patMatch)) 0).deleted
      from rfl, hdel] at hmem
  rcases commit with _ | _
  · simp at hmem
  · rw [if_pos rfl] at hmem
    have := (List.mem_filter.mp hmem).2
    simp [hk] at this

theorem cleanupLoopF_cons_error (s : FStore) (maxTtl : Int) (c : Bool) (k : String)
    (ks : List String) (e : String) (h : (processKeyF s maxTtl c k).2 = Except.error e) :
    cleanupLoopF s maxTtl c (k :: ks) = ((processKeyF s maxTtl c k).1, Except.error e) := by
  rcases hp : processKeyF s maxTtl c k with ⟨tr, r⟩
  rw [hp] at h
  simp only at h
  subst h
  simp [cleanupLoopF, hp]

theorem cleanupLoopF_cons_ok (s : FStore) (maxTtl : Int) (c : Bool) (k : String)
    (ks : List String) (h : (processKeyF s maxTtl c k).2 = Except.ok ()) :
    cleanupLoopF s maxTtl c (k :: ks) =
      ((processKeyF s maxTtl c k).1 ++ (cleanupLoopF s maxTtl c ks).1,
       (cleanupLoopF s maxTtl c ks).2) := by
  rcases hp : processKeyF s maxTtl c k with ⟨tr, r⟩
  rw [hp] at h
  simp only at h
  subst h
  simp [cleanupLoopF, hp]

theorem cleanupLoopF_ok_front (s : FStore) (maxTtl : Int) (c : Bool) :
    ∀ (l₁ rest : List String),
      (∀ x ∈ l₁, (processKeyF s maxTtl c x).2 = Except.ok ()) →
      cleanupLoopF s maxTtl c (l₁ ++ rest) =
        (l₁.flatMap (fun x => (processKeyF s maxTtl c x).1) ++ (cleanupLoopF s maxTtl c rest).1,
         (cleanupLoopF s maxTtl c rest).2) := by
  intro l₁
  induction l₁ with
  | nil => intro rest h; simp
  | cons x xs ih =>
    intro rest h
    have hx : (processKeyF s maxTtl c x).2 = Except.ok () := h x (List.mem_cons_self x xs)
    rw [List.cons_append, cleanupLoopF_cons_ok s maxTtl c x (xs ++ rest) hx,
      ih rest (fun y hy => h y (List.mem_cons_of_mem x hy))]
    simp

theorem seedLoopF_step_error (s : FStore) (pfx : String) (tok : Nat → String)
    (lvl : Nat → ℚ) (th : ℚ) (ttl i n : Nat) (e : String)
    (h : (writeKeyF s pfx tok lvl th ttl i).2 = Except.error e) :
    seedLoopF s pfx tok lvl th ttl i (n + 1) =
      ((writeKeyF s pfx tok lvl th ttl i).1, Except.error e) := by
  rcases hp : writeKeyF s pfx tok lvl th ttl i with ⟨tr, r⟩
  rw [hp] at h
  simp only at h
  subst h
  simp [seedLoopF, hp]

theorem seedLoopF_step_ok (s : FStore) (pfx : String) (tok : Nat → String)
    (lvl : Nat → ℚ) (th : ℚ) (ttl i n : Nat)
    (h : (writeKeyF s pfx tok lvl th ttl i).2 = Except.ok ()) :
    seedLoopF s pfx tok lvl th ttl i (n + 1) =
      ((writeKeyF s pfx tok lvl th ttl i).1 ++ (seedLoopF s pfx tok lvl th ttl (i + 1) n).1,
       (seedLoopF s pfx tok lvl th ttl (i + 1) n).2) := by
  rcases hp : writeKeyF s pfx tok lvl th ttl i with ⟨tr, r⟩
  rw [hp] at h
  simp only at h
  subst h
  simp [seedLoopF, hp]

theorem seedLoopF_ok_front (s : FStore) (pfx : String) (tok : Nat → String)
    (lvl : Nat → ℚ) (th : ℚ) (ttl : Nat) :
    ∀ (a i m : Nat),
      (∀ j, j < a → (writeKeyF s pfx tok lvl th ttl (i + j)).2 = Except.ok ()) →
      seedLoopF s pfx tok lvl th ttl i (a + m) =
        ((List.range' i a).flatMap (fun j => (writeKeyF s pfx tok lvl th ttl j).1) ++
           (seedLoopF s pfx tok lvl th ttl (i + a) m).1,
         (seedLoopF s pfx tok lvl th ttl (i + a) m).2) := by
  intro a
  induction a with
  | zero => intro i m h; simp [List.range']
  | succ a ih =>
    intro i m h
    have h0 : (writeKeyF s pfx tok lvl th ttl i).2 = Except.ok () := by
      have := h 0 (Nat.succ_pos a)
      simpa using this
    have hsum : a + 1 + m = (a + m) + 1 := by omega
    rw [hsum, seedLoopF_step_ok s pfx tok lvl th ttl i (a + m) h0,
      ih (i + 1) m (fun j hj => by
        have := h (j + 1) (by omega)
        have hrw : i + 1 + j = i + (j + 1) := by omega
        rw [hrw]
        exact this)]
    have hrange : List.range' i (a + 1) = i :: List.range' (i + 1) a := rfl
    have hia : i + 1 + a = i + (a + 1) := by omega
    rw [hrange, hia]
    simp

theorem processKeyF_false_trace (s : FStore) (maxTtl : Int) (k : String) :
    (processKeyF s maxTtl false k).1 = [StoreCall.ttlQ k] := by
  rcases h : s.ttlResp k with e | t
  · simp [processKeyF, h]
  · by_cases hm : isManaged k <;> simp [processKeyF, h, hm]

theorem cleanupLoopF_false_no_mutation (s : FStore) (maxTtl : Int) :
    ∀ (l : List String) (call : StoreCall), call ∈ (cleanupLoopF s maxTtl false l).1 →
      call.isMutation = false := by
  intro l
  induction l with
  | nil => intro call hc; cases hc
  | cons k ks ih =>
    intro call hc
    rcases h2 : (processKeyF s maxTtl false k).2 with e | u
    · rw [cleanupLoopF_cons_error s maxTtl false k ks e h2] at hc
      rw [processKeyF_false_trace] at hc
      rcases List.mem_singleton.mp hc with h
      subst h
      rfl
    · rw [cleanupLoopF_cons_ok s maxTtl false k ks (by rw [h2])] at hc
      rw [processKeyF_false_trace] at hc
      rcases List.mem_append.mp hc with hc | hc
      · rcases List.mem_singleton.mp hc with h
        subst h
        rfl
      · exact ih call hc

theorem evSpec_length (f : String → Int) (maxTtl : Int) (l : List String) (idx : Nat) :
    (evSpec f maxTtl l idx).length = l.length := by
  have := congrArg List.length (evSpec_map_key f maxTtl l idx)
  simpa using this

theorem cleanup_events (patMatch : String → Bool) (maxTtl : Int) (c : Bool) (st : Store) :
    (cleanup patMatch maxTtl c st).events =
      evSpec st.ttlOf maxTtl
        (List.insertionSort (fun a b => keyLe a b = true) (st.keys.filter patMatch)) 0 :=
  cleanupLoop_events maxTtl c _ st 0

theorem classified_mem_spec (patMatch : String → Bool) (maxTtl : Int) (commit : Bool)
    (st : Store) (p : Nat) (k : String) (t : Int) (sd : Bool)
    (he : Event.classified p k t sd ∈ (cleanup patMatch maxTtl commit st).events) :
    t = st.ttlOf k ∧ sd = shouldDelete t maxTtl ∧ isManaged k = false := by
  rw [show (cleanup patMatch maxTtl commit st).events
        = evSpec st.ttlOf maxTtl
            (List.insertionSort (fun a b => keyLe a b = true) (st.keys.filter patMatch)) 0
      from cleanupLoop_events maxTtl commit _ st 0] at he
  rcases evSpec_mem_shape st.ttlOf maxTtl _ 0 _ he with ⟨p', k', _, habs⟩ | ⟨p', k', hm, heq⟩
  · cases habs
  · cases heq
    exact ⟨rfl, rfl, hm⟩

/-- C1: in `cleanup`, for every enumerated key that is not classified as
managed, the reported decision flag `sd` equals `shouldDelete t maxTtl`,
i.e. `t ≤ maxTtl`, where `t` is the store's TTL answer for that key; and the
per-key report is computed identically whether `commit` is true or false. -/
theorem cleanup_decision_spec (patMatch : String → Bool) (maxTtl : Int) (commit : Bool)
    (st : Store) (p : Nat) (k : String) (t : Int) (sd : Bool)
    (he : Event.classified p k t sd ∈ (cleanup patMatch maxTtl commit st).events) :
    t = st.ttlOf k ∧ sd = shouldDelete t maxTtl ∧ (sd = true ↔ t ≤ maxTtl) ∧
      (cleanup patMatch maxTtl commit st).events =
        (cleanup patMatch maxTtl false st).events := by
  rcases classified_mem_spec patMatch maxTtl commit st p k t sd he with ⟨ht, hsd, _⟩
  refine ⟨ht, hsd, ?_, ?_⟩
  · rw [hsd]
    simp [shouldDelete]
  · rw [cleanup_events patMatch maxTtl commit st, cleanup_events patMatch maxTtl false st]

theorem cleanup_decision_spec_witness :
    (Event.classified 1 "a" 5 true ∈
      (cleanup (fun _ => true) 10 true ⟨["a"], fun _ => 5⟩).events) ∧
    ((5 : Int) = (Store.mk ["a"] (fun _ => 5)).ttlOf "a" ∧ true = shouldDelete 5 10 ∧
      (true = true ↔ (5 : Int) ≤ 10) ∧
      (cleanup (fun _ => true) 10 true ⟨["a"], fun _ => 5⟩).events =
        (cleanup (fun _ => true) 10 false ⟨["a"], fun _ => 5⟩).events) :=
  ⟨by decide, cleanup_decision_spec (fun _ => true) 10 true ⟨["a"], fun _ => 5⟩ 1 "a" 5 true
    (by decide)⟩

/-- C2 counterexample: the single-segment key `"bull"` satisfies the claim's
premise — its first colon-segment is `"bull"` and its last colon-segment
(the same segment) fails to parse as a non-negative integer — yet the code
does not classify it as managed and a committed run deletes it, because the
Rust guard calls `.next()` and then `.last()` on the already-advanced
iterator, so `last()` is `None` for single-segment keys. -/
theorem managed_single_segment_cex :
    splitColon "bull" = ["bull"] ∧
    parseUsize "bull" = none ∧
    isManaged "bull" = false ∧
    (cleanup (fun _ => true) (-1) true ⟨["bull"], fun _ => -1⟩).deleted = ["bull"] ∧
    "bull" ∉ (cleanup (fun _ => true) (-1) true ⟨["bull"], fun _ => -1⟩).store.keys :=
  ⟨by decide, by decide, by decide, by decide, by decide⟩

/-- C2 amended: every key with AT LEAST TWO colon-segments whose first
segment is `"bull"` and whose last segment fails to parse as a `usize` is
classified managed, reported only with a managed-skip notice, never deleted
(for every TTL oracle, every `maxTtl`, both commit values), and processing
proceeds past it: every enumerated key still gets exactly one report line. -/
theorem managed_two_segments_never_deleted (patMatch : String → Bool) (maxTtl : Int)
    (commit : Bool) (st : Store) (k : String) (rest : List String) (num : String)
    (hsplit : splitColon k = "bull" :: rest) (hlast : rest.getLast? = some num)
    (hnum : parseUsize num = none) :
    isManaged k = true ∧
    (∀ e ∈ (cleanup patMatch maxTtl commit st).events, Event.key e = k →
      ∃ p t, e = Event.managedSkip p k t) ∧
    k ∉ (cleanup patMatch maxTtl commit st).deleted ∧
    (cleanup patMatch maxTtl commit st).events.length = (st.keys.filter patMatch).length := by
  have hman : isManaged k = true := by
    rcases rest with _ | ⟨r, rs⟩
    · simp at hlast
    · rw [isManaged, hsplit]
      simp only
      rw [hlast]
      simp [hnum]
  refine ⟨hman, ?_, managed_not_deleted k hman patMatch maxTtl commit st, ?_⟩
  · intro e hev hkey
    rw [cleanup_events patMatch maxTtl commit st] at hev
    rcases evSpec_mem_shape st.ttlOf maxTtl _ 0 e hev with ⟨p, k', _, hsk⟩ | ⟨p, k', hm, hcl⟩
    · subst hsk
      have hk' : k' = k := hkey
      subst hk'
      exact ⟨p, st.ttlOf k', rfl⟩
    · subst hcl
      have hk' : k' = k := hkey
      subst hk'
      simp [hman] at hm
  · rw [cleanup_events patMatch maxTtl commit st, evSpec_length, List.length_insertionSort]

theorem managed_two_segments_never_deleted_witness :
    (splitColon "bull:abc" = "bull" :: ["abc"] ∧ (["abc"]).getLast? = some "abc" ∧
      parseUsize "abc" = none) ∧
    (isManaged "bull:abc" = true ∧
      (∀ e ∈ (cleanup (fun _ => true) 99 true ⟨["bull:abc"], fun _ => -1⟩).events,
        Event.key e = "bull:abc" → ∃ p t, e = Event.managedSkip p "bull:abc" t) ∧
      "bull:abc" ∉ (cleanup (fun _ => true) 99 true ⟨["bull:abc"], fun _ => -1⟩).deleted ∧
      (cleanup (fun _ => true) 99 true ⟨["bull:abc"], fun _ => -1⟩).events.length =
        ((["bull:abc"] : List String).filter (fun _ => true)).length) :=
  ⟨⟨by decide, by decide, by decide⟩,
    managed_two_segments_never_deleted (fun _ => true) 99 true ⟨["bull:abc"], fun _ => -1⟩
      "bull:abc" ["abc"] "abc" (by decide) (by decide) (by decide)⟩

/-- C3: a dry run (`commit = false`) issues no delete: its deleted list is
empty, the store is returned unchanged, re-running the dry run on the
resulting store reproduces the identical result (same store, same report);
and in the trace model no mutating store call (`del`, `set`, `set_ex`) is
ever issued by a `commit = false` cleanup, for every fallible store. -/
theorem dry_run_no_mutation (st : Store) (patMatch : String → Bool) (maxTtl : Int)
    (s : FStore) (pat : String) (maxTtl2 : Int) :
    (cleanup patMatch maxTtl false st).deleted = [] ∧
    (cleanup patMatch maxTtl false st).store = st ∧
    cleanup patMatch maxTtl false ((cleanup patMatch maxTtl false st).store) =
      cleanup patMatch maxTtl false st ∧
    (∀ call ∈ (cleanupF s pat maxTtl2 false).1, call.isMutation = false) := by
  have hstore : (cleanup patMatch maxTtl false st).store = st :=
    cleanupLoop_store_false maxTtl _ st 0
  refine ⟨?_, hstore, ?_, ?_⟩
  · rw [show (cleanup patMatch maxTtl false st).deleted
          = (cleanupLoop maxTtl false st
              (List.insertionSort (fun a b => keyLe a b = true) (st.keys.filter patMatch))
              0).deleted from rfl,
      cleanupLoop_deleted maxTtl false _ st 0]
    rfl
  · rw [hstore]
  · intro call hc
    rcases hk : s.keysResp pat with e | ks
    · rw [show (cleanupF s pat maxTtl2 false).1 = [StoreCall.keysQ pat] by
          simp [cleanupF, hk]] at hc
      rcases List.mem_singleton.mp hc with h
      subst h
      rfl
    · rw [show (cleanupF s pat maxTtl2 false).1
            = StoreCall.keysQ pat ::
                (cleanupLoopF s maxTtl2 false
                  (List.insertionSort (fun a b => keyLe a b = true) ks)).1 by
          simp [cleanupF, hk]] at hc
      rcases List.mem_cons.mp hc with h | h
      · subst h
        rfl
      · exact cleanupLoopF_false_no_mutation s maxTtl2 _ call h

/-- C4: with the default `maxTtl = -1`, a TTL that is at least the no-expiry
sentinel `-1` (which every existing key's TTL is) is selected for deletion
exactly when it equals `-1`; concretely, the decision flag of any
classification report emitted under `maxTtl = -1` is true iff that key's
reported TTL is exactly `-1`. -/
theorem default_maxTtl_sentinel (ttl : Int) (h : -1 ≤ ttl) :
    (shouldDelete ttl (-1) = true ↔ ttl = -1) ∧
    (∀ (st : Store) (patMatch : String → Bool) (commit : Bool) (p : Nat) (k : String)
      (sd : Bool), Event.classified p k ttl sd ∈ (cleanup patMatch (-1) commit st).events →
      (sd = true ↔ ttl = -1)) := by
  have hiff : shouldDelete ttl (-1) = true ↔ ttl = -1 := by
    simp only [shouldDelete, decide_eq_true_eq]
    omega
  refine ⟨hiff, ?_⟩
  intro st patMatch commit p k sd he
  rcases classified_mem_spec patMatch (-1) commit st p k ttl sd he with ⟨_, hsd, _⟩
  rw [hsd]
  exact hiff

theorem default_maxTtl_sentinel_witness :
    (-1 : Int) ≤ 0 ∧
    ((shouldDelete 0 (-1) = true ↔ (0 : Int) = -1) ∧
      (∀ (st : Store) (patMatch : String → Bool) (commit : Bool) (p : Nat) (k : String)
        (sd : Bool), Event.classified p k 0 sd ∈ (cleanup patMatch (-1) commit st).events →
        (sd = true ↔ (0 : Int) = -1))) :=
  ⟨by decide, default_maxTtl_sentinel 0 (by decide)⟩

/-- C5: a committed cleanup is idempotent against a static store: running
`cleanup` with `commit = true` again, on the store produced by a first
committed run with the same pattern and `maxTtl` (TTL answers unchanged),
deletes zero keys. -/
theorem commit_idempotent (st : Store) (patMatch : String → Bool) (maxTtl : Int) :
    (cleanup patMatch maxTtl true ((cleanup patMatch maxTtl true st).store)).deleted = [] := by
  have httl : (cleanup patMatch maxTtl true st).store.ttlOf = st.ttlOf :=
    cleanupLoop_store_ttlOf maxTtl true _ st 0
  rw [show (cleanup patMatch maxTtl true ((cleanup patMatch maxTtl true st).store)).deleted
        = (cleanupLoop maxTtl true ((cleanup patMatch maxTtl true st).store)
            (List.insertionSort (fun a b => keyLe a b = true)
              (((cleanup patMatch maxTtl true st).store).keys.filter patMatch))
            0).deleted from rfl,
    cleanupLoop_deleted maxTtl true _ _ 0, if_pos rfl, List.filter_eq_nil_iff]
  intro k hk hp
  have hk1 : k ∈ ((cleanup patMatch maxTtl true st).store).keys.filter patMatch :=
    (List.mem_insertionSort _).mp hk
  have hkeys : k ∈ ((cleanup patMatch maxTtl true st).store).keys :=
    (List.mem_filter.mp hk1).1
  have hkpm : patMatch k = true := (List.mem_filter.mp hk1).2
  have hkst : k ∈ st.keys := cleanupLoop_store_keys_subset maxTtl true _ st 0 hkeys
  have hp' : (!isManaged k && shouldDelete (st.ttlOf k) maxTtl) = true := by
    rw [← httl]
    exact hp
  have hdel1 : k ∈ (cleanup patMatch maxTtl true st).deleted := by
    rw [show (cleanup patMatch maxTtl true st).deleted
          = (cleanupLoop maxTtl true st
              (List.insertionSort (fun a b => keyLe a b = true) (st.keys.filter patMatch))
              0).deleted from rfl,
      cleanupLoop_deleted maxTtl true _ st 0, if_pos rfl]
    exact List.mem_filter.mpr
      ⟨(List.mem_insertionSort _).mpr (List.mem_filter.mpr ⟨hkst, hkpm⟩), hp'⟩
  exact cleanupLoop_deleted_not_mem maxTtl true _ st 0 k hdel1 hkeys

/-- C6: a failing store call aborts the run at that call: the trace of issued
calls is exactly the calls for the keys (or writes) processed before the
failure plus the failing key's calls, the result is that error, no key after
the failing one is touched, and the deletes/writes issued before the failure
stay in the trace (no compensating call exists).  Covers the cleanup loop
(TTL or delete failure after a successful prefix `l₁`), the seed loop (write
failure at iteration `1 + a` after `a` successful writes), and a failing key
enumeration. -/
theorem store_error_fail_fast (s : FStore) (pat : String) (maxTtl : Int) (commit : Bool)
    (l₁ l₂ : List String) (k : String) (e : String) (pfx : String) (tok : Nat → String)
    (lvl : Nat → ℚ) (th : ℚ) (ttl : Nat) (a numKeys : Nat) (e₂ e₃ : String)
    (h₁ : ∀ x ∈ l₁, (processKeyF s maxTtl commit x).2 = Except.ok ())
    (h₂ : (processKeyF s maxTtl commit k).2 = Except.error e)
    (h₃ : ∀ j, j < a → (writeKeyF s pfx tok lvl th ttl (1 + j)).2 = Except.ok ())
    (h₄ : (writeKeyF s pfx tok lvl th ttl (1 + a)).2 = Except.error e₂)
    (h₅ : a < numKeys)
    (h₆ : s.keysResp pat = Except.error e₃) :
    cleanupLoopF s maxTtl commit (l₁ ++ k :: l₂) =
      (l₁.flatMap (fun x => (processKeyF s maxTtl commit x).1) ++
        (processKeyF s maxTtl commit k).1, Except.error e) ∧
    seedF s pfx tok lvl th ttl numKeys =
      ((List.range' 1 a).flatMap (fun j => (writeKeyF s pfx tok lvl th ttl j).1) ++
        (writeKeyF s pfx tok lvl th ttl (1 + a)).1, Except.error e₂) ∧
    cleanupF s pat maxTtl commit = ([StoreCall.keysQ pat], Except.error e₃) := by
  refine ⟨?_, ?_, ?_⟩
  · rw [cleanupLoopF_ok_front s maxTtl commit l₁ (k :: l₂) h₁,
      cleanupLoopF_cons_error s maxTtl commit k l₂ e h₂]
  · obtain ⟨m, hm⟩ : ∃ m, numKeys = a + (m + 1) := ⟨numKeys - a - 1, by omega⟩
    rw [show seedF s pfx tok lvl th ttl numKeys
          = seedLoopF s pfx tok lvl th ttl 1 numKeys from rfl, hm,
      seedLoopF_ok_front s pfx tok lvl th ttl a 1 (m + 1) h₃,
      seedLoopF_step_error s pfx tok lvl th ttl (1 + a) m e₂ h₄]
  · simp [cleanupF, h₆]

theorem store_error_fail_fast_witness :
    ((∀ x ∈ ["a"], (processKeyF failStore 0 true x).2 = Except.ok ()) ∧
      (processKeyF failStore 0 true "bad").2 = Except.error "ttl-err" ∧
      (∀ j, j < 2 → (writeKeyF failStore "p" wTok (fun _ => 0) 1 7 (1 + j)).2 =
        Except.ok ()) ∧
      (writeKeyF failStore "p" wTok (fun _ => 0) 1 7 (1 + 2)).2 = Except.error "set-err" ∧
      2 < 3 ∧ failStore.keysResp "*" = Except.error "keys-err") ∧
    cleanupLoopF failStore 0 true (["a"] ++ "bad" :: ["z"]) =
      ([StoreCall.ttlQ "a", StoreCall.delQ "a", StoreCall.ttlQ "bad"],
        Except.error "ttl-err") ∧
    seedF failStore "p" wTok (fun _ => 0) 1 7 3 =
      ([StoreCall.setExQ "p:t1" 7, StoreCall.setExQ "p:t2" 7, StoreCall.setExQ "p:t3" 7],
        Except.error "set-err") ∧
    cleanupF failStore "*" 0 true = ([StoreCall.keysQ "*"], Except.error "keys-err") := by
  have h₁ : ∀ x ∈ ["a"], (processKeyF failStore 0 true x).2 = Except.ok () := by
    intro x hx
    rcases List.mem_singleton.mp hx with h
    subst h
    rfl
  have h₃ : ∀ j, j < 2 → (writeKeyF failStore "p" wTok (fun _ => 0) 1 7 (1 + j)).2 =
      Except.ok () := by
    intro j hj
    interval_cases j <;> rfl
  have hall := store_error_fail_fast failStore "*" 0 true ["a"] ["z"] "bad" "ttl-err"
    "p" wTok (fun _ => 0) 1 7 2 3 "set-err" "keys-err" h₁ (by rfl)
    h₃ (by rfl) (by decide) (by rfl)
  refine ⟨⟨h₁, by rfl, h₃, by rfl, by decide, by rfl⟩, ?_, ?_, ?_⟩
  · rw [hall.1]
    rfl
  · rw [hall.2.1]
    rfl
  · rw [hall.2.2]

/-- C7: a successful seed run performs exactly `numKeys` writes, every
written key is the configured prefix, a colon, then the generated token, and
when the token stream does not repeat within the run no two written keys are
equal. -/
theorem seed_writes_distinct (pfx : String) (tok : Nat → String) (lvl : Nat → ℚ)
    (th : ℚ) (ttl numKeys : Nat)
    (htok : (((List.range' 1 numKeys).map tok)).Nodup) :
    (seedWrites pfx tok lvl th ttl numKeys).length = numKeys ∧
    (∀ w ∈ seedWrites pfx tok lvl th ttl numKeys, ∃ t, w.key = pfx ++ ":" ++ t) ∧
    (((seedWrites pfx tok lvl th ttl numKeys).map WriteOp.key)).Nodup := by
  refine ⟨?_, ?_, ?_⟩
  · simp [seedWrites]
  · intro w hw
    rcases List.mem_map.mp hw with ⟨i, _, hwi⟩
    exact ⟨tok i, by rw [← hwi]⟩
  · have hmap : (seedWrites pfx tok lvl th ttl numKeys).map WriteOp.key
        = (((List.range' 1 numKeys).map tok)).map (fun t => pfx ++ ":" ++ t) := by
      simp [seedWrites, List.map_map]
    rw [hmap]
    refine List.Nodup.map ?_ htok
    intro x y hxy
    exact string_append_cancel_left (pfx ++ ":") x y hxy

theorem seed_writes_distinct_witness :
    (((List.range' 1 2).map Nat.repr)).Nodup ∧
    ((seedWrites "test" Nat.repr (fun _ => 0) 0 7 2).length = 2 ∧
      (∀ w ∈ seedWrites "test" Nat.repr (fun _ => 0) 0 7 2, ∃ t, w.key = "test" ++ ":" ++ t) ∧
      (((seedWrites "test" Nat.repr (fun _ => 0) 0 7 2).map WriteOp.key)).Nodup) :=
  ⟨by decide, seed_writes_distinct "test" Nat.repr (fun _ => 0) 0 7 2 (by decide)⟩

/-- C8: each seed write's expiry is decided by comparing a uniform draw in
`[0,1)` strictly against the threshold; with threshold 0 no write gets an
expiry (every draw is ≥ 0), with threshold 1 every write gets expiry `ttl`
(every draw is < 1). -/
theorem seed_threshold_extremes (pfx : String) (tok : Nat → String) (ttl numKeys : Nat)
    (lvl : Nat → ℚ) (h0 : ∀ i, 0 ≤ lvl i) (h1 : ∀ i, lvl i < 1) :
    (∀ w ∈ seedWrites pfx tok lvl 0 ttl numKeys, w.expiry = none) ∧
    (∀ w ∈ seedWrites pfx tok lvl 1 ttl numKeys, w.expiry = some ttl) := by
  constructor
  · intro w hw
    rcases List.mem_map.mp hw with ⟨i, _, hwi⟩
    rw [← hwi]
    simp [not_lt.mpr (h0 i)]
  · intro w hw
    rcases List.mem_map.mp hw with ⟨i, _, hwi⟩
    rw [← hwi]
    simp [h1 i]

theorem seed_threshold_extremes_witness :
    ((∀ i : Nat, (0 : ℚ) ≤ (fun _ => (0 : ℚ)) i) ∧ (∀ i : Nat, (fun _ => (0 : ℚ)) i < 1)) ∧
    ((∀ w ∈ seedWrites "t" Nat.repr (fun _ => (0 : ℚ)) 0 9 2, w.expiry = none) ∧
      (∀ w ∈ seedWrites "t" Nat.repr (fun _ => (0 : ℚ)) 1 9 2, w.expiry = some 9)) :=
  ⟨⟨fun _ => le_refl 0, fun _ => by norm_num⟩,
    seed_threshold_extremes "t" Nat.repr 9 2 (fun _ => (0 : ℚ)) (fun _ => le_refl 0)
      (fun _ => by norm_num)⟩

/-- C9: cleanup reports the enumerated keys in ascending lexicographic order
(a sorted permutation of the enumeration) with 1-based positions 1, 2, …;
and the set of keys a committed loop deletes does not depend on the order in
which the store returned the enumeration. -/
theorem cleanup_sorted_order_invariant (st : Store) (patMatch : String → Bool)
    (maxTtl : Int) (commit : Bool) (stA : Store) (idxA : Nat) (l₁ l₂ : List String)
    (hp : l₁.Perm l₂) :
    List.Sorted (fun a b => keyLe a b = true)
      ((cleanup patMatch maxTtl commit st).events.map Event.key) ∧
    ((cleanup patMatch maxTtl commit st).events.map Event.key).Perm
      (st.keys.filter patMatch) ∧
    (cleanup patMatch maxTtl commit st).events.map Event.pos =
      List.range' 1 (st.keys.filter patMatch).length ∧
    (∀ k, k ∈ (cleanupLoop maxTtl true stA l₁ idxA).deleted ↔
      k ∈ (cleanupLoop maxTtl true stA l₂ idxA).deleted) := by
  haveI httr : IsTrans String (fun a b => keyLe a b = true) := ⟨keyLe_trans⟩
  haveI htot : IsTotal String (fun a b => keyLe a b = true) := ⟨keyLe_total⟩
  refine ⟨?_, ?_, ?_, ?_⟩
  · rw [cleanup_events patMatch maxTtl commit st, evSpec_map_key]
    exact List.sorted_insertionSort _ _
  · rw [cleanup_events patMatch maxTtl commit st, evSpec_map_key]
    exact List.perm_insertionSort _ _
  · rw [cleanup_events patMatch maxTtl commit st, evSpec_map_pos, List.length_insertionSort]
  · intro k
    rw [cleanupLoop_deleted maxTtl true l₁ stA idxA,
      cleanupLoop_deleted maxTtl true l₂ stA idxA, if_pos rfl, if_pos rfl]
    exact (hp.filter _).mem_iff

theorem cleanup_sorted_order_invariant_witness :
    (["b", "a"] : List String).Perm ["a", "b"] ∧
    (List.Sorted (fun a b => keyLe a b = true)
      ((cleanup (fun _ => true) 0 true ⟨["b", "a"], fun _ => -1⟩).events.map Event.key) ∧
    ((cleanup (fun _ => true) 0 true ⟨["b", "a"], fun _ => -1⟩).events.map Event.key).Perm
      ((["b", "a"] : List String).filter (fun _ => true)) ∧
    (cleanup (fun _ => true) 0 true ⟨["b", "a"], fun _ => -1⟩).events.map Event.pos =
      List.range' 1 ((["b", "a"] : List String).filter (fun _ => true)).length ∧
    (∀ k, k ∈ (cleanupLoop 0 true ⟨["b", "a"], fun _ => -1⟩ ["b", "a"] 0).deleted ↔
      k ∈ (cleanupLoop 0 true ⟨["b", "a"], fun _ => -1⟩ ["a", "b"] 0).deleted)) :=
  ⟨List.Perm.swap "a" "b" [],
    cleanup_sorted_order_invariant ⟨["b", "a"], fun _ => -1⟩ (fun _ => true) 0 true
      ⟨["b", "a"], fun _ => -1⟩ 0 ["b", "a"] ["a", "b"] (List.Perm.swap "a" "b" [])⟩

/-- C10: the managed check parses the last segment as a 64-bit `usize`, not
as an arbitrary non-negative integer: the plain numeral 2^64 fails to parse,
so `bull:18446744073709551616` is managed and never deleted by any run,
while a leading plus sign is accepted, so `bull:+5` is not managed. -/
theorem parseUsize_machine_bounds :
    parseUsize "18446744073709551616" = none ∧
    isManaged "bull:18446744073709551616" = true ∧
    (∀ (patMatch : String → Bool) (maxTtl : Int) (commit : Bool) (st : Store),
      "bull:18446744073709551616" ∉ (cleanup patMatch maxTtl commit st).deleted) ∧
    parseUsize "+5" = some 5 ∧
    isManaged "bull:+5" = false := by
  refine ⟨by decide, by decide, ?_, by decide, by decide⟩
  intro patMatch maxTtl commit st
  exact managed_not_deleted _ (by decide) patMatch maxTtl commit st

end DeleteRs
